import Mathlib

/-!
Shallow embedding of the video relevance search and transcript-windowing
engine of the Personalized Learning project (`src/app.py`, embedded
JavaScript: `searchByTopics`, `handleGetVideoContent`, `formatTime`).

JavaScript strings are modelled as `List Char` (`Str`); JS runtime
operations (`toLowerCase`, `includes`, `startsWith`, `split(/\s+/)`,
`join(' ')`, `padStart`, stable `Array.prototype.sort`) are given
explicit executable definitions below, faithful to their semantics on
the data the program manipulates.
-/

namespace PL

/-- A JavaScript string, modelled as a list of characters. -/
abbrev Str := List Char

/-- The characters matched by the JavaScript regex class `\s`
(restricted to the ASCII whitespace characters): space (32), tab (9),
line feed (10), carriage return (13), vertical tab (11), form feed (12). -/
def jsIsWs (c : Char) : Bool :=
  c.toNat = 32 || c.toNat = 9 || c.toNat = 10 || c.toNat = 13 ||
    c.toNat = 11 || c.toNat = 12

/-- JS `String.prototype.toLowerCase` (per-character, basic latin). -/
def jsToLower (s : Str) : Str := s.map Char.toLower

/-- JS `String.prototype.toUpperCase` (per-character, basic latin). -/
def jsToUpper (s : Str) : Str := s.map Char.toUpper

/-- JS `hay.includes(needle)`: `needle` occurs as a contiguous substring
of `hay` (the empty needle always occurs). -/
def strIncludes (hay needle : Str) : Bool :=
  needle.isPrefixOf hay ||
    match hay with
    | [] => false
    | _ :: t => strIncludes t needle

/-- Maximal nonempty runs of non-whitespace characters of `s`;
`acc` holds the (reversed) run currently being read. -/
def wsTokensAux : Str → Str → List Str
  | [], acc => if acc.isEmpty then [] else [acc.reverse]
  | c :: rest, acc =>
    if jsIsWs c then
      if acc.isEmpty then wsTokensAux rest [] else acc.reverse :: wsTokensAux rest []
    else
      wsTokensAux rest (c :: acc)

/-- The whitespace-delimited (nonempty) tokens of `s`. -/
def wsTokens (s : Str) : List Str := wsTokensAux s []

/-- JS `s.split(/\s+/)`: the nonempty tokens, plus an empty-string
element at the front when `s` starts with whitespace (in particular
`"".split` yields `[""]`) and at the back when a nonempty `s` ends with
whitespace. -/
def jsSplitWs (s : Str) : List Str :=
  match s with
  | [] => [[]]
  | c :: rest =>
    (if jsIsWs c then [([] : Str)] else []) ++ wsTokensAux (c :: rest) [] ++
      (if jsIsWs ((c :: rest).getLast (List.cons_ne_nil c rest)) then [([] : Str)] else [])

/-- JS `xs.join(' ')`. -/
def joinSpace (xs : List Str) : Str := List.intercalate [' '] xs

/-- A transcript segment: `{start, end, text}` (times in integer seconds). -/
structure Segment where
  start : Int
  «end» : Int
  text : Str
deriving DecidableEq, Repr

/-- A video record as consumed by the engine.  Fields that the code
guards with `|| []` / `|| ''` (they may be absent in the JSON) are
modelled as `Option`. -/
structure Video where
  id : Str
  title : Option Str
  topics : Option (List Str)
  keywords : Option (List Str)
  transcript : Option (List Segment)
deriving DecidableEq, Repr

/-- A search result: the video together with its score
(`{ ...video, score }` in the source). -/
structure SearchResult where
  video : Video
  score : Nat
deriving DecidableEq, Repr

/-- `(video.topics || []).join(' ').toLowerCase()`. -/
def topicsText (v : Video) : Str := jsToLower (joinSpace (v.topics.getD []))

/-- `(video.keywords || []).join(' ').toLowerCase()`. -/
def keywordsText (v : Video) : Str := jsToLower (joinSpace (v.keywords.getD []))

/-- `(video.title || '').toLowerCase()`. -/
def titleText (v : Video) : Str := jsToLower (v.title.getD [])

/-- `topics + ' ' + keywords + ' ' + title`. -/
def allTextOf (v : Video) : Str :=
  topicsText v ++ [' '] ++ keywordsText v ++ [' '] ++ titleText v

/-- The body of the inner `allWords.forEach` of `searchByTopics`:
`if (w.startsWith(word) && w !== word) { score += 3; }`. -/
def prefixBonusStep (word : Str) (score : Nat) (w : Str) : Nat :=
  if word.isPrefixOf w ∧ w ≠ word then score + 3 else score

/-- The body of the `queryWords.forEach` of `searchByTopics`: +10 for a
`topics` substring hit, +8 for `keywords`, +15 for `title`, then the
prefix bonus over `allWords = allText.split(/\s+/)`. -/
def scoreWordStep (video : Video) (score : Nat) (word : Str) : Nat :=
  let score := if strIncludes (topicsText video) word then score + 10 else score
  let score := if strIncludes (keywordsText video) word then score + 8 else score
  let score := if strIncludes (titleText video) word then score + 15 else score
  let allWords := jsSplitWs (allTextOf video)
  allWords.foldl (prefixBonusStep word) score

/-- The scoring loop body of `searchByTopics`: maps a video to
`{ ...video, score }`: `score` starts at 0, gains 20 on a full-query
substring hit in `allText`, then accumulates `scoreWordStep` over each
query word. -/
def scoreVideo (queryLower : Str) (queryWords : List Str) (video : Video) : SearchResult :=
  let score : Nat := 0
  let score := if strIncludes (allTextOf video) queryLower then score + 20 else score
  let score := queryWords.foldl (scoreWordStep video) score
  ⟨video, score⟩

/-- One insertion step of the stable descending sort. -/
def insertScored (r : SearchResult) : List SearchResult → List SearchResult
  | [] => [r]
  | x :: xs => if x.score ≤ r.score then r :: x :: xs else x :: insertScored r xs

/-- Stable sort by score descending: models the ECMAScript (stable)
`Array.prototype.sort` with comparator `(a, b) => b.score - a.score`. -/
def sortByScoreDesc (l : List SearchResult) : List SearchResult :=
  l.foldr insertScored []

/-- `searchByTopics(query)` over the catalog `VIDEOS_DATA`.  The guard
`!query || !VIDEOS_DATA || VIDEOS_DATA.length === 0` short-circuits on
the empty query string and the empty (or absent) catalog. -/
def searchByTopics (videosData : List Video) (query : Str) : List SearchResult :=
  if query = [] ∨ videosData = [] then []
  else
    let queryLower := jsToLower query
    let queryWords := (jsSplitWs queryLower).filter (fun w => w.length > 1)
    let scored := videosData.map (scoreVideo queryLower queryWords)
    sortByScoreDesc (scored.filter (fun v => v.score > 0))

/-! ### Transcript windowing (`handleGetVideoContent`, `formatTime`) -/

/-- `formatTime(seconds)`: `Math.floor(seconds / 60) + ':' +
Math.floor(seconds % 60).toString().padStart(2, '0')`.  JS `/` with
`Math.floor` is `Int.fdiv`; JS `%` is the truncating remainder
`Int.tmod`, and `Math.floor` is the identity on the integers modelled
here. -/
def formatTime (seconds : Int) : Str :=
  let mins := Int.fdiv seconds 60
  let secs := Int.tmod seconds 60
  let secsStr := (toString secs).toList
  (toString mins).toList ++ [':'] ++
    (if secsStr.length ≥ 2 then secsStr else List.replicate (2 - secsStr.length) '0' ++ secsStr)

/-- The per-segment selection test of `handleGetVideoContent`:
`(seg.start >= startRange && seg.start <= endRange) ||
 (seg.end >= startRange && seg.end <= endRange) ||
 (seg.start <= startRange && seg.end >= endRange)`
with `startRange = Math.max(0, timestamp - 10)`, `endRange = timestamp + 10`. -/
def inWindow (timestamp : Int) (seg : Segment) : Bool :=
  let startRange := max 0 (timestamp - 10)
  let endRange := timestamp + 10
  (seg.start ≥ startRange && seg.start ≤ endRange) ||
    (seg.«end» ≥ startRange && seg.«end» ≤ endRange) ||
    (seg.start ≤ startRange && seg.«end» ≥ endRange)

/-- The filter producing `relevantSegments` before the fallback. -/
def selectWindow (transcript : List Segment) (timestamp : Int) : List Segment :=
  transcript.filter (inWindow timestamp)

/-- `Math.min(Math.abs(seg.start - timestamp), Math.abs(seg.end - timestamp))`. -/
def segDist (timestamp : Int) (seg : Segment) : Nat :=
  min (seg.start - timestamp).natAbs (seg.«end» - timestamp).natAbs

/-- One step of the fallback loop: the running state is
`closestSeg`/`minDist` (`none` models `closestSeg = null`,
`minDist = Infinity`); a segment replaces the state only when its
distance is strictly smaller. -/
def closestStep (timestamp : Int) (best : Option (Segment × Nat)) (seg : Segment) :
    Option (Segment × Nat) :=
  let dist := segDist timestamp seg
  match best with
  | none => some (seg, dist)
  | some (_, minDist) => if dist < minDist then some (seg, dist) else best

/-- The fallback scan of `handleGetVideoContent`: the first segment of
the transcript at minimal `segDist`, or `none` for an empty transcript. -/
def closestSeg (transcript : List Segment) (timestamp : Int) : Option Segment :=
  (transcript.foldl (closestStep timestamp) none).map Prod.fst

/-- `relevantSegments` after the fallback: the in-window segments, or,
when none is in the window, the closest segment (if any). -/
def relevantSegments (transcript : List Segment) (timestamp : Int) : List Segment :=
  let sel := selectWindow transcript timestamp
  if sel.isEmpty then
    match closestSeg transcript timestamp with
    | some seg => [seg]
    | none => []
  else sel

/-- The `contentText` accumulation:
`contentText += '[' + formatTime(seg.start) + '-' + formatTime(seg.end) + '] ' + seg.text + '\n'`. -/
def contentTextOf (segs : List Segment) : Str :=
  segs.foldl (fun acc seg =>
    acc ++ ['['] ++ formatTime seg.start ++ ['-'] ++ formatTime seg.«end» ++ [']', ' '] ++
      seg.text ++ ['\n']) []

/-- The sentinel used for the `content` field when no text was produced. -/
def noContentSentinel : Str := "Tidak ada konten di timestamp ini".toList

/-- The `content` field: `contentText || 'Tidak ada konten di timestamp ini'`. -/
def windowText (transcript : List Segment) (timestamp : Int) : Str :=
  let contentText := contentTextOf (relevantSegments transcript timestamp)
  if contentText = [] then noContentSentinel else contentText

/-- The value passed to `sendFunctionResult` by `handleGetVideoContent`:
either the not-found failure (`success: false` with a message) or the
success payload. -/
inductive FnResult where
  | failure (message : Str)
  | success (videoId : Str) (videoTitle : Option Str) (timestamp : Int)
      (content : Str) (segments : List Segment)
deriving DecidableEq, Repr

/-- `handleGetVideoContent` (after the transport layer has defaulted
`args.timestamp || 0` and `args.video_id || currentVideoId`): looks the
video up by id and, when found, windows its transcript
(`video.transcript || []`). -/
def handleGetVideoContent (videosData : List Video) (videoId : Str) (timestamp : Int) :
    FnResult :=
  match videosData.find? (fun v => v.id == videoId) with
  | none => .failure ("Video tidak ditemukan".toList)
  | some video =>
    let transcript := video.transcript.getD []
    .success videoId video.title timestamp (windowText transcript timestamp)
      (relevantSegments transcript timestamp)

/-! ### Spec-side definitions (for the refinement claim about scoring)

These transcribe the specification's wording of the scoring formula, to
be compared with `scoreVideo` (which transcribes the source).  The
specification describes the score as a sum of independent
contributions; `wsTokens` is its "whitespace-delimited tokens". -/

/-- Spec wording: the contribution of one query word `w`: +10 if `w` is
a substring of `topicsText`, +8 for `keywordsText`, +15 for
`titleText`, and +3 for every whitespace-delimited token of `allText`
that starts with `w` and is not exactly `w`. -/
def specWordScore (v : Video) (word : Str) : Nat :=
  (if strIncludes (topicsText v) word then 10 else 0) +
  (if strIncludes (keywordsText v) word then 8 else 0) +
  (if strIncludes (titleText v) word then 15 else 0) +
  3 * (wsTokens (allTextOf v)).countP (fun tok => word.isPrefixOf tok && tok != word)

/-- The per-word contribution as the source computes it (the count of
prefix-bonus tokens ranges over `allText.split(/\s+/)`, i.e. over
`jsSplitWs`, boundary empty strings included). -/
def codeWordScore (video : Video) (word : Str) : Nat :=
  (if strIncludes (topicsText video) word then 10 else 0) +
  (if strIncludes (keywordsText video) word then 8 else 0) +
  (if strIncludes (titleText video) word then 15 else 0) +
  3 * (jsSplitWs (allTextOf video)).countP (fun tok => word.isPrefixOf tok && tok != word)

/-- Spec wording of a video's full score: 20 if the lowercased query is
a substring of `allText`, plus the per-word contributions of the
query's whitespace tokens of length > 1. -/
def specScore (v : Video) (query : Str) : Nat :=
  (if strIncludes (allTextOf v) (jsToLower query) then 20 else 0) +
  (((wsTokens (jsToLower query)).filter (fun w => w.length > 1)).map (specWordScore v)).sum

/-! ### A search call together with the catalog state it leaves behind

`searchByTopics` only reads the global `VIDEOS_DATA` (it builds new
objects with `map` and `{ ...video, score }` and sorts the derived
array, never reassigning or writing through `VIDEOS_DATA`), so the
catalog value after the call is the one before it. -/

/-- A call to `searchByTopics`: the pair (catalog after the call,
returned results). -/
def searchCall (videosData : List Video) (query : Str) :
    List Video × List SearchResult :=
  (videosData, searchByTopics videosData query)

/-! ### Concrete data used by the specification's worked examples -/

/-- `{start: 0, end: 10, text: "a"}`. -/
def segA : Segment := ⟨0, 10, "a".toList⟩

/-- `{start: 40, end: 50, text: "b"}`. -/
def segB : Segment := ⟨40, 50, "b".toList⟩

/-- The two-segment transcript of the spec's `windowAt` examples. -/
def exTranscript : List Segment := [segA, segB]

/-- A video carrying `exTranscript`. -/
def exVideo : Video := ⟨"v1".toList, some ("ex".toList), none, none, some exTranscript⟩

/-- A minimal video: every optional field absent. -/
def vNil : Video := ⟨"v".toList, none, none, none, none⟩

/-- A video whose title is `"abc"`, all other optional fields absent. -/
def vAbc : Video := ⟨"va".toList, some ("abc".toList), none, none, none⟩

/-! ## Lemmas about the stable descending sort -/

theorem insertScored_perm (r : SearchResult) (l : List SearchResult) :
    (insertScored r l).Perm (r :: l) := by
  induction l with
  | nil => exact List.Perm.refl _
  | cons x xs ih =>
    unfold insertScored
    by_cases h : x.score ≤ r.score
    · rw [if_pos h]
    · rw [if_neg h]
      exact (ih.cons x).trans (List.Perm.swap r x xs)

theorem sortByScoreDesc_perm (l : List SearchResult) :
    (sortByScoreDesc l).Perm l := by
  induction l with
  | nil => exact List.Perm.refl _
  | cons x xs ih =>
    exact (insertScored_perm x (sortByScoreDesc xs)).trans (ih.cons x)

theorem insertScored_pairwise (r : SearchResult) (l : List SearchResult)
    (h : l.Pairwise (fun a b => b.score ≤ a.score)) :
    (insertScored r l).Pairwise (fun a b => b.score ≤ a.score) := by
  induction l with
  | nil => simp [insertScored]
  | cons x xs ih =>
    rw [List.pairwise_cons] at h
    unfold insertScored
    by_cases hx : x.score ≤ r.score
    · rw [if_pos hx]
      refine List.Pairwise.cons ?_ (List.Pairwise.cons h.1 h.2)
      intro y hy
      rcases List.mem_cons.mp hy with rfl | hy
      · exact hx
      · exact le_trans (h.1 y hy) hx
    · rw [if_neg hx]
      refine List.Pairwise.cons ?_ (ih h.2)
      intro y hy
      rcases List.mem_cons.mp ((insertScored_perm r xs).mem_iff.mp hy) with rfl | hy
      · exact le_of_lt (lt_of_not_le hx)
      · exact h.1 y hy

theorem sortByScoreDesc_pairwise (l : List SearchResult) :
    (sortByScoreDesc l).Pairwise (fun a b => b.score ≤ a.score) := by
  induction l with
  | nil => simp [sortByScoreDesc]
  | cons x xs ih => exact insertScored_pairwise x (sortByScoreDesc xs) ih

theorem insertScored_filter (r : SearchResult) (l : List SearchResult) (s : Nat) :
    (insertScored r l).filter (fun x => x.score == s) =
      if r.score = s then r :: l.filter (fun x => x.score == s)
      else l.filter (fun x => x.score == s) := by
  induction l with
  | nil => by_cases h : r.score = s <;> simp [insertScored, h]
  | cons x xs ih =>
    unfold insertScored
    by_cases hx : x.score ≤ r.score
    · rw [if_pos hx]
      by_cases hr : r.score = s <;> simp [hr, List.filter_cons]
    · rw [if_neg hx]
      have hxr : x.score ≠ r.score := fun he => hx (le_of_eq he)
      by_cases hr : r.score = s
      · have hxs : ¬ (x.score = s) := fun he => hxr (he.trans hr.symm)
        simp [List.filter_cons, hxs, ih, hr]
      · by_cases hxs : x.score = s <;> simp [List.filter_cons, hxs, ih, hr]

theorem sortByScoreDesc_filter (l : List SearchResult) (s : Nat) :
    (sortByScoreDesc l).filter (fun x => x.score == s) =
      l.filter (fun x => x.score == s) := by
  induction l with
  | nil => rfl
  | cons x xs ih =>
    show (insertScored x (sortByScoreDesc xs)).filter _ = _
    rw [insertScored_filter]
    by_cases h : x.score = s <;> simp [List.filter_cons, h, ih]

/-! ## Lemmas about the scoring accumulation -/

theorem prefixBonus_foldl (word : Str) (l : List Str) (init : Nat) :
    l.foldl (prefixBonusStep word) init =
      init + 3 * l.countP (fun w => word.isPrefixOf w && w != word) := by
  induction l generalizing init with
  | nil => simp
  | cons x xs ih =>
    rw [List.foldl_cons, ih, List.countP_cons]
    unfold prefixBonusStep
    by_cases hp : word.isPrefixOf x <;> by_cases he : x = word <;>
      (simp [hp, he]; try omega)

theorem scoreWordStep_eq (video : Video) (score : Nat) (word : Str) :
    scoreWordStep video score word = score + codeWordScore video word := by
  unfold scoreWordStep codeWordScore
  rw [prefixBonus_foldl]
  by_cases h1 : strIncludes (topicsText video) word <;>
    by_cases h2 : strIncludes (keywordsText video) word <;>
      by_cases h3 : strIncludes (titleText video) word <;>
        simp [h1, h2, h3] <;> omega

theorem scoreWordStep_foldl_sum (video : Video) (words : List Str) (init : Nat) :
    words.foldl (scoreWordStep video) init =
      init + (words.map (codeWordScore video)).sum := by
  induction words generalizing init with
  | nil => simp
  | cons w ws ih =>
    rw [List.foldl_cons, ih, scoreWordStep_eq, List.map_cons, List.sum_cons]
    omega

theorem scoreVideo_score (queryLower : Str) (queryWords : List Str) (video : Video) :
    (scoreVideo queryLower queryWords video).score =
      (if strIncludes (allTextOf video) queryLower then 20 else 0) +
      (queryWords.map (codeWordScore video)).sum := by
  unfold scoreVideo
  dsimp only
  rw [scoreWordStep_foldl_sum]

/-! ## Lemmas relating `jsSplitWs` to `wsTokens` -/

theorem jsSplitWs_shape (s : Str) :
    ∃ a b : List Str, (a = [] ∨ a = [[]]) ∧ (b = [] ∨ b = [[]]) ∧
      jsSplitWs s = a ++ wsTokens s ++ b := by
  cases s with
  | nil => exact ⟨[[]], [], Or.inr rfl, Or.inl rfl, rfl⟩
  | cons c rest =>
    unfold jsSplitWs wsTokens
    by_cases h1 : jsIsWs c <;>
      by_cases h2 : jsIsWs ((c :: rest).getLast (List.cons_ne_nil c rest))
    · exact ⟨[[]], [[]], Or.inr rfl, Or.inr rfl, by simp [h1, h2]⟩
    · exact ⟨[[]], [], Or.inr rfl, Or.inl rfl, by simp [h1, h2]⟩
    · exact ⟨[], [[]], Or.inl rfl, Or.inr rfl, by simp [h1, h2]⟩
    · exact ⟨[], [], Or.inl rfl, Or.inl rfl, by simp [h1, h2]⟩

theorem filter_jsSplitWs (p : Str → Bool) (hp : p [] = false) (s : Str) :
    (jsSplitWs s).filter p = (wsTokens s).filter p := by
  obtain ⟨a, b, ha, hb, hs⟩ := jsSplitWs_shape s
  rw [hs, List.filter_append, List.filter_append]
  rcases ha with rfl | rfl <;> rcases hb with rfl | rfl <;> simp [hp]

theorem countP_jsSplitWs (p : Str → Bool) (hp : p [] = false) (s : Str) :
    (jsSplitWs s).countP p = (wsTokens s).countP p := by
  obtain ⟨a, b, ha, hb, hs⟩ := jsSplitWs_shape s
  rw [hs, List.countP_append, List.countP_append]
  rcases ha with rfl | rfl <;> rcases hb with rfl | rfl <;> simp [hp]

theorem isPrefixOf_nil_of_ne (word : Str) (h : word ≠ []) :
    word.isPrefixOf ([] : Str) = false := by
  cases word with
  | nil => exact absurd rfl h
  | cons c w => rfl

/-! ## Claim theorems -/

/-- C1 (amended): `searchByTopics` returns the empty sequence for an
empty query and for an empty catalog.  (A whitespace-only but nonempty
query is not covered by the guard; see the counterexample below.) -/
theorem searchByTopics_empty_guard (videosData : List Video) (query : Str) :
    (query = [] → searchByTopics videosData query = []) ∧
    (videosData = [] → searchByTopics videosData query = []) := by
  constructor <;> intro h <;> simp [searchByTopics, h]

/-- Witness for C1: the amended claim at concrete inputs. -/
theorem searchByTopics_empty_guard_witness :
    searchByTopics [vNil] [] = [] ∧ searchByTopics [] ['a'] = [] :=
  ⟨(searchByTopics_empty_guard [vNil] []).1 rfl,
   (searchByTopics_empty_guard [] ['a']).2 rfl⟩

/-- C1 counterexample: the whitespace-only query `" "` is nonempty, so
the guard `!query` does not fire; `allText` always contains the two
separator spaces, so `" "` matches every video (+20) and the search
over a one-video catalog returns a nonempty sequence, refuting the
claim that whitespace-only queries yield the empty sequence. -/
theorem searchByTopics_whitespace_counterexample :
    searchByTopics [vNil] [' '] ≠ [] := by decide

/-- C9: `searchByTopics` is a pure function of the catalog and the
query: the call leaves the catalog unchanged (the source builds new
objects via `map` and `{ ...video, score }` and sorts only the derived
array), and a second call on the resulting state returns the identical
ordered result sequence. -/
theorem searchCall_idempotent (videosData : List Video) (query : Str) :
    (searchCall videosData query).1 = videosData ∧
    (searchCall (searchCall videosData query).1 query).2 =
      (searchCall videosData query).2 :=
  ⟨rfl, rfl⟩

/-- C2: the score `searchByTopics` computes for a video (with the query
words exactly as `searchByTopics` derives them from the query) equals
the specification's formula `specScore`: 20 for a full-query substring
hit in `allText`, plus, per query token of length > 1: 10/8/15 for
substring hits in `topicsText`/`keywordsText`/`titleText`, and 3 for
every whitespace-delimited token of `allText` that starts with the word
without being equal to it. -/
theorem scoreVideo_eq_specScore (video : Video) (query : Str) :
    (scoreVideo (jsToLower query)
        ((jsSplitWs (jsToLower query)).filter (fun w => w.length > 1)) video).score =
      specScore video query := by
  rw [scoreVideo_score]
  rw [filter_jsSplitWs (fun w => w.length > 1) (by decide) (jsToLower query)]
  unfold specScore
  congr 1
  apply congrArg
  apply List.map_congr_left
  intro w hw
  have hlen : w.length > 1 := by
    have := (List.mem_filter.mp hw).2
    simpa using this
  have hne : w ≠ [] := by
    intro h
    rw [h] at hlen
    simp at hlen
  unfold codeWordScore specWordScore
  congr 1
  apply congrArg
  apply countP_jsSplitWs
  rw [isPrefixOf_nil_of_ne w hne]
  rfl

/-- C3: past the emptiness guard, the search result is exactly the
scored catalog filtered to positive score: it is sorted by score
descending (`Pairwise`), it is a permutation of the filtered scored
list, the sort is stable (for every score value, the results with that
score appear in original catalog order — the filtered sublist at each
score is preserved verbatim), and every returned score is ≥ 1. -/
theorem searchByTopics_ranking (videosData : List Video) (query : Str)
    (hq : query ≠ []) (hv : videosData ≠ []) :
    ((searchByTopics videosData query).Pairwise (fun a b => b.score ≤ a.score)) ∧
    (∀ s : Nat, (searchByTopics videosData query).filter (fun r => r.score == s) =
      ((videosData.map (scoreVideo (jsToLower query)
          ((jsSplitWs (jsToLower query)).filter (fun w => w.length > 1)))).filter
        (fun r => r.score > 0)).filter (fun r => r.score == s)) ∧
    ((searchByTopics videosData query).Perm
      ((videosData.map (scoreVideo (jsToLower query)
          ((jsSplitWs (jsToLower query)).filter (fun w => w.length > 1)))).filter
        (fun r => r.score > 0))) ∧
    (∀ r ∈ searchByTopics videosData query, 1 ≤ r.score) := by
  have hsearch : searchByTopics videosData query =
      sortByScoreDesc ((videosData.map (scoreVideo (jsToLower query)
          ((jsSplitWs (jsToLower query)).filter (fun w => w.length > 1)))).filter
        (fun r => r.score > 0)) := by
    simp [searchByTopics, hq, hv]
  rw [hsearch]
  refine ⟨sortByScoreDesc_pairwise _, fun s => sortByScoreDesc_filter _ s,
    sortByScoreDesc_perm _, ?_⟩
  intro r hr
  have hr' := (sortByScoreDesc_perm _).mem_iff.mp hr
  have := List.of_mem_filter hr'
  simpa using this

/-- Witness for C3 at a concrete catalog and query. -/
theorem searchByTopics_ranking_witness :
    (("a".toList : Str) ≠ []) ∧ ([vNil, vAbc] ≠ ([] : List Video)) ∧
    ((searchByTopics [vNil, vAbc] ("a".toList)).Pairwise (fun a b => b.score ≤ a.score)) ∧
    ((searchByTopics [vNil, vAbc] ("a".toList)).filter (fun r => r.score == 20) =
      ((([vNil, vAbc]).map (scoreVideo (jsToLower ("a".toList))
          ((jsSplitWs (jsToLower ("a".toList))).filter (fun w => w.length > 1)))).filter
        (fun r => r.score > 0)).filter (fun r => r.score == 20)) :=
  ⟨by decide, by decide,
   (searchByTopics_ranking [vNil, vAbc] ("a".toList) (by decide) (by decide)).1,
   (searchByTopics_ranking [vNil, vAbc] ("a".toList) (by decide) (by decide)).2.1 20⟩

/-- C4: the window selection keeps exactly the transcript segments
whose `start` lies in `[max(0, t-10), t+10]`, or whose `end` lies in
that interval, or that span it; and on the spec's two-segment example
at `t = 45` the window is exactly `[segB]` with the rendered text
`"[0:40-0:50] b\n"`. -/
theorem selectWindow_spec :
    (∀ (video : Video) (t : Int) (seg : Segment), 0 ≤ t →
      (seg ∈ selectWindow (video.transcript.getD []) t ↔
        seg ∈ video.transcript.getD [] ∧
          ((max 0 (t - 10) ≤ seg.start ∧ seg.start ≤ t + 10) ∨
           (max 0 (t - 10) ≤ seg.«end» ∧ seg.«end» ≤ t + 10) ∨
           (seg.start ≤ max 0 (t - 10) ∧ t + 10 ≤ seg.«end»)))) ∧
    relevantSegments exTranscript 45 = [segB] ∧
    windowText exTranscript 45 = ("[0:40-0:50] b\n").toList := by
  refine ⟨?_, by decide, by decide⟩
  intro video t seg ht
  simp only [selectWindow, List.mem_filter, inWindow, Bool.or_eq_true, Bool.and_eq_true,
    decide_eq_true_eq, ge_iff_le]
  tauto

/-- Witness for C4 at the spec's example segment and timestamp. -/
theorem selectWindow_spec_witness :
    ((0 : Int) ≤ 45) ∧
    (segB ∈ selectWindow (exVideo.transcript.getD []) 45 ↔
      segB ∈ exVideo.transcript.getD [] ∧
        ((max 0 ((45 : Int) - 10) ≤ segB.start ∧ segB.start ≤ 45 + 10) ∨
         (max 0 ((45 : Int) - 10) ≤ segB.«end» ∧ segB.«end» ≤ 45 + 10) ∨
         (segB.start ≤ max 0 ((45 : Int) - 10) ∧ 45 + 10 ≤ segB.«end»))) :=
  ⟨by decide, selectWindow_spec.1 exVideo 45 segB (by decide)⟩

theorem closest_foldl_spec (t : Int) (l : List Segment) : ∀ (b : Segment),
    ∃ c pre post,
      l.foldl (closestStep t) (some (b, segDist t b)) = some (c, segDist t c) ∧
      b :: l = pre ++ c :: post ∧
      (∀ x ∈ pre, segDist t c < segDist t x) ∧
      (∀ x ∈ b :: l, segDist t c ≤ segDist t x) := by
  induction l with
  | nil =>
    intro b
    refine ⟨b, [], [], rfl, rfl, by simp, ?_⟩
    intro x hx
    rw [List.mem_singleton.mp hx]
  | cons a l ih =>
    intro b
    rw [List.foldl_cons]
    by_cases h : segDist t a < segDist t b
    · have hstep : closestStep t (some (b, segDist t b)) a = some (a, segDist t a) := by
        simp [closestStep, h]
      rw [hstep]
      obtain ⟨c, pre, post, h1, h2, h3, h4⟩ := ih a
      have hca : segDist t c ≤ segDist t a := h4 a (List.mem_cons_self a l)
      refine ⟨c, b :: pre, post, h1, by simp [h2], ?_, ?_⟩
      · intro x hx
        rcases List.mem_cons.mp hx with rfl | hx
        · exact lt_of_le_of_lt hca h
        · exact h3 x hx
      · intro x hx
        rcases List.mem_cons.mp hx with rfl | hx
        · exact le_of_lt (lt_of_le_of_lt hca h)
        · exact h4 x hx
    · have hstep : closestStep t (some (b, segDist t b)) a = some (b, segDist t b) := by
        simp [closestStep, h]
      rw [hstep]
      obtain ⟨c, pre, post, h1, h2, h3, h4⟩ := ih b
      have hba : segDist t b ≤ segDist t a := le_of_not_lt h
      cases pre with
      | nil =>
        have hcb : c = b := by
          have := h2
          simp at this
          exact this.1.symm
        refine ⟨c, [], a :: l, h1, by simp [hcb], by simp, ?_⟩
        intro x hx
        rcases List.mem_cons.mp hx with rfl | hx
        · rw [hcb]
        · rcases List.mem_cons.mp hx with rfl | hx
          · rw [hcb]; exact hba
          · exact h4 x (List.mem_cons_of_mem b hx)
      | cons p pre' =>
        have hbp : b = p ∧ l = pre' ++ c :: post := by
          have := h2
          rw [List.cons_append] at this
          exact ⟨List.head_eq_of_cons_eq this, List.tail_eq_of_cons_eq this⟩
        obtain ⟨hb, hl⟩ := hbp
        have hcb : segDist t c < segDist t b := by
          apply h3 b
          rw [← hb]
          exact List.mem_cons_self b pre'
        refine ⟨c, b :: a :: pre', post, h1, by rw [hb]; simp [hl, hb], ?_, ?_⟩
        · intro x hx
          rcases List.mem_cons.mp hx with rfl | hx
          · exact hcb
          · rcases List.mem_cons.mp hx with rfl | hx
            · exact lt_of_lt_of_le hcb hba
            · apply h3 x
              rw [← hb]
              exact List.mem_cons_of_mem b hx
        · intro x hx
          rcases List.mem_cons.mp hx with rfl | hx
          · exact le_of_lt hcb
          · rcases List.mem_cons.mp hx with rfl | hx
            · exact le_trans (le_of_lt hcb) hba
            · exact h4 x (List.mem_cons_of_mem b hx)

theorem closestSeg_first_min (transcript : List Segment) (t : Int)
    (h : transcript ≠ []) :
    ∃ c pre post, closestSeg transcript t = some c ∧
      transcript = pre ++ c :: post ∧
      (∀ x ∈ pre, segDist t c < segDist t x) ∧
      (∀ x ∈ transcript, segDist t c ≤ segDist t x) := by
  cases transcript with
  | nil => exact absurd rfl h
  | cons b l =>
    obtain ⟨c, pre, post, h1, h2, h3, h4⟩ := closest_foldl_spec t l b
    refine ⟨c, pre, post, ?_, h2, h3, h4⟩
    unfold closestSeg
    rw [List.foldl_cons]
    have hfirst : closestStep t none b = some (b, segDist t b) := rfl
    rw [hfirst, h1]
    rfl

/-- C5: when no segment satisfies the window rule but the transcript is
nonempty, `relevantSegments` is the single segment at minimal
`min(|start - t|, |end - t|)` distance, the first such segment in
transcript order (every earlier segment is strictly farther); and on
the spec's two-segment example at `t = 1000` the fallback is `segB`. -/
theorem relevantSegments_fallback_spec :
    (∀ (video : Video) (t : Int), video.transcript.getD [] ≠ [] →
      selectWindow (video.transcript.getD []) t = [] →
      ∃ c pre post, relevantSegments (video.transcript.getD []) t = [c] ∧
        video.transcript.getD [] = pre ++ c :: post ∧
        (∀ x ∈ pre, segDist t c < segDist t x) ∧
        (∀ x ∈ video.transcript.getD [], segDist t c ≤ segDist t x)) ∧
    relevantSegments exTranscript 1000 = [segB] := by
  refine ⟨?_, by decide⟩
  intro video t hne hsel
  obtain ⟨c, pre, post, h1, h2, h3, h4⟩ := closestSeg_first_min (video.transcript.getD []) t hne
  refine ⟨c, pre, post, ?_, h2, h3, h4⟩
  simp [relevantSegments, hsel, h1]

/-- Witness for C5 at the spec's example transcript and timestamp. -/
theorem relevantSegments_fallback_witness :
    (exVideo.transcript.getD [] ≠ []) ∧
    (selectWindow (exVideo.transcript.getD []) 1000 = []) ∧
    (∃ c pre post, relevantSegments (exVideo.transcript.getD []) 1000 = [c] ∧
      exVideo.transcript.getD [] = pre ++ c :: post ∧
      (∀ x ∈ pre, segDist 1000 c < segDist 1000 x) ∧
      (∀ x ∈ exVideo.transcript.getD [], segDist 1000 c ≤ segDist 1000 x)) :=
  ⟨by decide, by decide,
   relevantSegments_fallback_spec.1 exVideo 1000 (by decide) (by decide)⟩

/-- C6: for a video whose transcript is empty (or absent), the window
yields no segments and the fixed sentinel text
`'Tidak ada konten di timestamp ini'`, which is not the empty string. -/
theorem windowAt_empty_transcript (video : Video) (t : Int)
    (h : video.transcript.getD [] = []) :
    relevantSegments (video.transcript.getD []) t = [] ∧
    windowText (video.transcript.getD []) t = noContentSentinel ∧
    noContentSentinel ≠ [] := by
  rw [h]
  exact ⟨rfl, rfl, by decide⟩

/-- Witness for C6: a video with no transcript field, at `t = 7`. -/
theorem windowAt_empty_transcript_witness :
    (vNil.transcript.getD [] = []) ∧
    (relevantSegments (vNil.transcript.getD []) 7 = [] ∧
     windowText (vNil.transcript.getD []) 7 = noContentSentinel ∧
     noContentSentinel ≠ []) :=
  ⟨rfl, windowAt_empty_transcript vNil 7 rfl⟩

/-- C7: a content request whose video id matches no catalog entry
produces the ordinary failure value (`success: false` with the message
`'Video tidak ditemukan'`); no windowing is reached (the handler
returns before `relevantSegments`/`windowText` are ever applied). -/
theorem handleGetVideoContent_notFound (videosData : List Video) (videoId : Str)
    (t : Int) (h : ∀ v ∈ videosData, v.id ≠ videoId) :
    handleGetVideoContent videosData videoId t =
      .failure ("Video tidak ditemukan".toList) := by
  have hf : videosData.find? (fun v => v.id == videoId) = none := by
    rw [List.find?_eq_none]
    intro v hv
    simpa using h v hv
  simp [handleGetVideoContent, hf]

/-- Witness for C7: a one-video catalog and an id not in it. -/
theorem handleGetVideoContent_notFound_witness :
    handleGetVideoContent [exVideo] ("zz".toList) 5 =
      .failure ("Video tidak ditemukan".toList) :=
  handleGetVideoContent_notFound [exVideo] ("zz".toList) 5 (by decide)

/-! ## Character-level lemmas about ASCII case mapping -/

theorem char_toNat_ofNat_valid (n : Nat) (h : n.isValidChar) :
    (Char.ofNat n).toNat = n := by
  unfold Char.ofNat
  rw [dif_pos h]
  rfl

theorem toLower_toUpper_char (c : Char) :
    (Char.toUpper c).toLower = Char.toLower c := by
  by_cases h : c.toNat ≥ 97 ∧ c.toNat ≤ 122
  · have hvalid : (c.toNat - 32).isValidChar := Or.inl (by omega)
    have ht : (Char.ofNat (c.toNat - 32)).toNat = c.toNat - 32 :=
      char_toNat_ofNat_valid _ hvalid
    have hup : Char.toUpper c = Char.ofNat (c.toNat - 32) := by
      unfold Char.toUpper
      rw [if_pos h]
    rw [hup]
    unfold Char.toLower
    rw [ht]
    have hc1 : c.toNat - 32 ≥ 65 ∧ c.toNat - 32 ≤ 90 := by omega
    have hc2 : ¬(c.toNat ≥ 65 ∧ c.toNat ≤ 90) := by omega
    rw [if_pos hc1, if_neg hc2]
    have harith : c.toNat - 32 + 32 = c.toNat := by omega
    rw [harith, Char.ofNat_toNat]
  · have hup : Char.toUpper c = c := by
      unfold Char.toUpper
      rw [if_neg h]
    rw [hup]

theorem toLower_idem_char (c : Char) :
    (Char.toLower c).toLower = Char.toLower c := by
  by_cases h : c.toNat ≥ 65 ∧ c.toNat ≤ 90
  · have hvalid : (c.toNat + 32).isValidChar := Or.inl (by omega)
    have ht : (Char.ofNat (c.toNat + 32)).toNat = c.toNat + 32 :=
      char_toNat_ofNat_valid _ hvalid
    have hlo : Char.toLower c = Char.ofNat (c.toNat + 32) := by
      unfold Char.toLower
      rw [if_pos h]
    rw [hlo]
    unfold Char.toLower
    rw [ht]
    have hc1 : ¬(c.toNat + 32 ≥ 65 ∧ c.toNat + 32 ≤ 90) := by omega
    rw [if_neg hc1]
  · have hlo : Char.toLower c = c := by
      unfold Char.toLower
      rw [if_neg h]
    rw [hlo]
    exact hlo

theorem jsToLower_jsToUpper (s : Str) :
    jsToLower (jsToUpper s) = jsToLower (jsToLower s) := by
  unfold jsToLower jsToUpper
  rw [List.map_map, List.map_map]
  apply List.map_congr_left
  intro c _
  show (Char.toUpper c).toLower = (Char.toLower c).toLower
  rw [toLower_toUpper_char, toLower_idem_char]

/-- C8: query matching is case-insensitive: searching with the query
uppercased returns the identical result sequence (same videos, same
scores, same order) as searching with it lowercased, because the code
lowercases the query before matching and ASCII case mapping satisfies
`toLower (toUpper c) = toLower (toLower c)`. -/
theorem searchByTopics_case_insensitive (videosData : List Video) (query : Str) :
    searchByTopics videosData (jsToUpper query) =
      searchByTopics videosData (jsToLower query) := by
  by_cases hq : query = []
  · subst hq
    rfl
  · by_cases hv : videosData = []
    · simp [searchByTopics, hv]
    · have hu : jsToUpper query ≠ [] := by
        intro h
        exact hq (by simpa [jsToUpper] using h)
      have hl : jsToLower query ≠ [] := by
        intro h
        exact hq (by simpa [jsToLower] using h)
      have h1 : ¬(jsToUpper query = [] ∨ videosData = []) := by
        push_neg
        exact ⟨hu, hv⟩
      have h2 : ¬(jsToLower query = [] ∨ videosData = []) := by
        push_neg
        exact ⟨hl, hv⟩
      unfold searchByTopics
      rw [if_neg h1, if_neg h2, jsToLower_jsToUpper]

theorem jsIsWs_toLower (c : Char) : jsIsWs (Char.toLower c) = jsIsWs c := by
  by_cases h : c.toNat ≥ 65 ∧ c.toNat ≤ 90
  · have hvalid : (c.toNat + 32).isValidChar := Or.inl (by omega)
    have ht : (Char.ofNat (c.toNat + 32)).toNat = c.toNat + 32 :=
      char_toNat_ofNat_valid _ hvalid
    have hlo : Char.toLower c = Char.ofNat (c.toNat + 32) := by
      unfold Char.toLower
      rw [if_pos h]
    have hA : jsIsWs (Char.ofNat (c.toNat + 32)) = false := by
      simp only [jsIsWs, ht, Bool.or_eq_false_iff, decide_eq_false_iff_not]
      omega
    have hB : jsIsWs c = false := by
      simp only [jsIsWs, Bool.or_eq_false_iff, decide_eq_false_iff_not]
      omega
    rw [hlo, hA, hB]
  · have hlo : Char.toLower c = c := by
      unfold Char.toLower
      rw [if_neg h]
    rw [hlo]

theorem wsTokensAux_toLower (s : Str) : ∀ acc : Str,
    wsTokensAux (jsToLower s) (jsToLower acc) = (wsTokensAux s acc).map jsToLower := by
  induction s with
  | nil =>
    intro acc
    cases acc with
    | nil => rfl
    | cons a as => simp [wsTokensAux, jsToLower, List.map_reverse]
  | cons c s ih =>
    intro acc
    have ih0 : wsTokensAux (jsToLower s) [] = (wsTokensAux s []).map jsToLower := ih []
    show wsTokensAux (Char.toLower c :: jsToLower s) (jsToLower acc) = _
    unfold wsTokensAux
    rw [jsIsWs_toLower]
    by_cases h : jsIsWs c
    · rw [if_pos h, if_pos h]
      cases acc with
      | nil => simpa [jsToLower] using ih0
      | cons a as =>
        simp only [jsToLower] at ih0 ⊢
        simp [ih0, jsToLower, List.map_reverse, List.map_append]
    · rw [if_neg h, if_neg h]
      show wsTokensAux (jsToLower s) (jsToLower (c :: acc)) = _
      exact ih (c :: acc)

theorem wsTokens_toLower (s : Str) :
    wsTokens (jsToLower s) = (wsTokens s).map jsToLower := by
  unfold wsTokens
  exact wsTokensAux_toLower s []

/-- C10: for a query with at least one non-whitespace character all of
whose whitespace-delimited tokens have length ≤ 1, every token is
discarded by the length filter, so each video scores exactly 20 when
its `allText` contains the lowercased query and 0 otherwise — and such
a query can still produce nonempty results: over a nonempty catalog the
search result is nonempty exactly when some video's `allText` contains
the lowercased query. -/
theorem singleCharTokens_score (query : Str)
    (hq : ∃ c ∈ query, jsIsWs c = false)
    (htok : ∀ w ∈ wsTokens query, w.length ≤ 1) :
    (∀ video : Video, (scoreVideo (jsToLower query)
        ((jsSplitWs (jsToLower query)).filter (fun w => w.length > 1)) video).score =
      if strIncludes (allTextOf video) (jsToLower query) then 20 else 0) ∧
    (∀ videosData : List Video, videosData ≠ [] →
      (searchByTopics videosData query ≠ [] ↔
        ∃ v ∈ videosData, strIncludes (allTextOf v) (jsToLower query))) := by
  have hwords : (jsSplitWs (jsToLower query)).filter (fun w => w.length > 1) = [] := by
    rw [filter_jsSplitWs (fun w => w.length > 1) (by decide), wsTokens_toLower]
    rw [List.filter_eq_nil_iff]
    intro w hw
    obtain ⟨w0, hw0, rfl⟩ := List.mem_map.mp hw
    have := htok w0 hw0
    simp [jsToLower]
    omega
  have hscore : ∀ video : Video, (scoreVideo (jsToLower query)
      ((jsSplitWs (jsToLower query)).filter (fun w => w.length > 1)) video).score =
      if strIncludes (allTextOf video) (jsToLower query) then 20 else 0 := by
    intro video
    rw [scoreVideo_score, hwords]
    simp
  refine ⟨hscore, ?_⟩
  intro videosData hd
  have hqne : query ≠ [] := by
    obtain ⟨c, hc, -⟩ := hq
    intro h
    rw [h] at hc
    exact absurd hc (List.not_mem_nil c)
  have hsearch : searchByTopics videosData query =
      sortByScoreDesc ((videosData.map (scoreVideo (jsToLower query)
          ((jsSplitWs (jsToLower query)).filter (fun w => w.length > 1)))).filter
        (fun r => r.score > 0)) := by
    simp [searchByTopics, hqne, hd]
  rw [hsearch]
  constructor
  · intro hne
    have hfne : ((videosData.map (scoreVideo (jsToLower query)
        ((jsSplitWs (jsToLower query)).filter (fun w => w.length > 1)))).filter
          (fun r => r.score > 0)) ≠ [] := by
      intro h
      rw [h] at hne
      exact hne rfl
    obtain ⟨r, hr⟩ := List.exists_mem_of_ne_nil _ hfne
    have hrmem := List.mem_filter.mp hr
    obtain ⟨v, hv, hveq⟩ := List.mem_map.mp hrmem.1
    refine ⟨v, hv, ?_⟩
    have hpos : r.score > 0 := by simpa using hrmem.2
    by_cases hinc : strIncludes (allTextOf v) (jsToLower query)
    · exact hinc
    · exfalso
      rw [← hveq] at hpos
      rw [hscore v, if_neg hinc] at hpos
      exact absurd hpos (lt_irrefl 0)
  · rintro ⟨v, hv, hinc⟩
    intro hnil
    have hperm := sortByScoreDesc_perm ((videosData.map (scoreVideo (jsToLower query)
        ((jsSplitWs (jsToLower query)).filter (fun w => w.length > 1)))).filter
      (fun r => r.score > 0))
    rw [hnil] at hperm
    have hfnil := hperm.symm.eq_nil
    have hall := List.filter_eq_nil_iff.mp hfnil
    have hmem : scoreVideo (jsToLower query)
        ((jsSplitWs (jsToLower query)).filter (fun w => w.length > 1)) v ∈
        videosData.map (scoreVideo (jsToLower query)
          ((jsSplitWs (jsToLower query)).filter (fun w => w.length > 1))) :=
      List.mem_map_of_mem _ hv
    have := hall _ hmem
    simp [hscore v, hinc] at this

/-- Witness for C10: the single-character query `"a"` and a video
titled `"abc"`: the query token is discarded, yet the full-query
substring rule scores 20 and the search returns a nonempty result. -/
theorem singleCharTokens_score_witness :
    (scoreVideo (jsToLower ("a".toList))
        ((jsSplitWs (jsToLower ("a".toList))).filter (fun w => w.length > 1)) vAbc).score =
      (if strIncludes (allTextOf vAbc) (jsToLower ("a".toList)) then 20 else 0) ∧
    searchByTopics [vAbc] ("a".toList) ≠ [] :=
  ⟨(singleCharTokens_score ("a".toList) (by decide) (by decide)).1 vAbc,
   ((singleCharTokens_score ("a".toList) (by decide) (by decide)).2 [vAbc]
      (by decide)).mpr ⟨vAbc, by decide, by decide⟩⟩

end PL
